import Mathlib

/-!
Verification of the copy-on-write AVL binary tree (package `tree`,
`apoydence/go-binarytree`).

The development has two embeddings of the same source code:

* a value-semantics embedding (`Tree`, `insert`, `dropLeft`, `balance`, ...)
  in which a Go `*Node` is a `Tree` value (`Tree.nil` for the nil pointer)
  and every field write to a freshly allocated node is expressed by
  constructing the node with its final field values; a Go nil-pointer
  dereference (a run-time panic) is modelled by `Option.none`;

* a heap embedding (`HNode`, `Heap`, `insertH`, `dropLeftH`, ...) in which
  nodes live at addresses (list indices), `&Node{...}` is an allocation at
  the end of the heap and each field assignment is an explicit store, used
  to prove the publication / snapshot-immutability property: operations
  never write to a previously existing address.

Heights and counters are Go `int` values, modelled as `Int`; keys are Go
`int64` values, modelled as `Int` (the code only compares keys, so no
wrap-around arithmetic occurs).
-/

namespace GoBinaryTree

/-- A Go `*Node`: `nil` is the nil pointer, `node key value left right height`
is a `Node` with its five fields (`Key`, `Value`, `left`, `right`, `height`). -/
inductive Tree (V : Type) where
  | nil : Tree V
  | node (key : Int) (value : V) (left : Tree V) (right : Tree V) (height : Int) : Tree V
deriving DecidableEq

variable {V : Type} {σ : Type}

/-- Pointer-nil test, Go `n == nil`. -/
def Tree.isNil : Tree V → Bool
  | .nil => true
  | .node _ _ _ _ _ => false

/-- The `height` field read with the Go default `0` for a nil pointer, as in
`var hl int; if l != nil { hl = l.height }`. -/
def heightField : Tree V → Int
  | .nil => 0
  | .node _ _ _ _ h => h

/-- Go `findHeight(l, r)`: one plus the larger stored child height. -/
def findHeight (l r : Tree V) : Int :=
  let hl := heightField l
  let hr := heightField r
  if hl > hr then hl + 1 else hr + 1

/-- Go `findNodeHeight(n)`: `0` for nil, else `findHeight(n.left, n.right)`. -/
def findNodeHeight : Tree V → Int
  | .nil => 0
  | .node _ _ l r _ => findHeight l r

/-- Go `rightRotate(y)`: builds copies `y2 = {y.Key, y.Value, x.right, y.right}`
and `x2 = {x.Key, x.Value, x.left, y2}` and recomputes both heights, in that
order. Dereferencing `x := y.left` when `y` (or `y.left`) is nil panics, which
is modelled by `none`. -/
def rightRotate : Tree V → Option (Tree V)
  | .nil => none
  | .node yk yv yl yr _ =>
    match yl with
    | .nil => none
    | .node xk xv xl xr _ =>
      let y2 : Tree V := .node yk yv xr yr (findHeight xr yr)
      some (.node xk xv xl y2 (findHeight xl y2))

/-- Go `leftRotate(x)`: mirror image of `rightRotate`. -/
def leftRotate : Tree V → Option (Tree V)
  | .nil => none
  | .node xk xv xl xr _ =>
    match xr with
    | .nil => none
    | .node yk yv yl yr _ =>
      let x2 : Tree V := .node xk xv xl yl (findHeight xl yl)
      some (.node yk yv x2 yr (findHeight x2 yr))

/-- Go `balance(n, key)`: the four-case AVL rotation decision driven by the
balance factor and a comparison of `key` against the child key.  The
Right-Left case is guarded by `n.left == nil || n.right.left == nil` and then
returns `n` unrotated; the Left-Right case has no such guard.  A nil
dereference (`n` nil, `n.left` nil with `b > 1`, `n.right` nil with `b < -1`,
or the rotations' own dereferences) is `none`. -/
def balance : Tree V → Int → Option (Tree V)
  | .nil, _ => none
  | .node k v l r h, key =>
    let hl := findNodeHeight l
    let hr := findNodeHeight r
    let b := hl - hr
    if b > 1 then
      match l with
      | .nil => none
      | .node lk lv ll lr lh =>
        if key < lk then
          rightRotate (.node k v (.node lk lv ll lr lh) r h)
        else if key > lk then
          match leftRotate (.node lk lv ll lr lh) with
          | none => none
          | some l2 => rightRotate (.node k v l2 r h)
        else
          some (.node k v (.node lk lv ll lr lh) r h)
    else if b < -1 then
      match r with
      | .nil => none
      | .node rk rv rl rr rh =>
        if key > rk then
          leftRotate (.node k v l (.node rk rv rl rr rh) h)
        else if key < rk then
          if l.isNil || rl.isNil then
            some (.node k v l (.node rk rv rl rr rh) h)
          else
            match rightRotate (.node rk rv rl rr rh) with
            | none => none
            | some r2 => leftRotate (.node k v l r2 h)
        else
          some (.node k v l (.node rk rv rl rr rh) h)
    else
      some (.node k v l r h)

/-- Go `insert(key, value, n)`: copy-on-write descent.  The returned `Bool`
records whether the stats `Added` counter was incremented (a fresh leaf was
created).  `none` models a nil-dereference panic inside `balance`. -/
def insert (key : Int) (value : V) : Tree V → Option (Tree V × Bool)
  | .nil => some (.node key value .nil .nil 1, true)
  | .node k v l r h =>
    if key < k then
      match insert key value l with
      | none => none
      | some (left, ok) =>
        match balance (.node k v left r (findHeight left r)) key with
        | none => none
        | some m => some (m, ok)
    else if key > k then
      match insert key value r with
      | none => none
      | some (right, ok) =>
        match balance (.node k v l right (findHeight l right)) key with
        | none => none
        | some m => some (m, ok)
    else
      some (.node key value l r h, false)

/-- Go `dropLeft(n)`: remove the leftmost node, promote its right child, and
recompute heights (only) along the rebuilt spine.  Total: no dereference of a
possibly-nil pointer occurs. -/
def dropLeft : Tree V → Tree V
  | .nil => .nil
  | .node k v l r _ =>
    match l with
    | .nil => r
    | .node lk lv ll lr lh =>
      let left := dropLeft (.node lk lv ll lr lh)
      .node k v left r (findHeight left r)

/-- The Go `Stat` struct returned by `Stats`. -/
structure Stat where
  Added : Int
  Dropped : Int
  Size : Int
deriving DecidableEq

/-- The Go `BinaryTree` handle: the published root and the two meaningful
stats counters (the stored `Size` field of the stats object is recomputed on
every `Stats` call and never read, so it is not part of the state). -/
structure BinaryTree (V : Type) where
  root : Tree V
  added : Int
  dropped : Int
deriving DecidableEq

/-- Go `New()`: empty tree, zero counters. -/
def New : BinaryTree V := { root := .nil, added := 0, dropped := 0 }

/-- Go `Root()`. -/
def Root (t : BinaryTree V) : Tree V := t.root

/-- Go `Stats()`: copies the counters and sets `Size = Added - Dropped`. -/
def Stats (t : BinaryTree V) : Stat :=
  { Added := t.added, Dropped := t.dropped, Size := t.added - t.dropped }

/-- Go `Insert(key, value)`: run `insert` on the root and publish the result;
the `Added` counter goes up by one exactly when a fresh leaf was created.
`none` models the run-time panic (in which case nothing is published). -/
def Insert (key : Int) (value : V) (t : BinaryTree V) : Option (BinaryTree V) :=
  match insert key value t.root with
  | none => none
  | some (r, ok) =>
    some { root := r, added := t.added + (if ok then 1 else 0), dropped := t.dropped }

/-- Go `DropLeft()`: increments `Dropped` unconditionally (also on an empty
tree) and publishes `dropLeft` of the root. -/
def DropLeft (t : BinaryTree V) : BinaryTree V :=
  { root := dropLeft t.root, added := t.added, dropped := t.dropped + 1 }

/-- Go `Traverse(n, f)`: in-order traversal with an early-stopping visitor.
The Go callback is impure, so it is modelled state-threaded: `f s k v`
returns the `keepGoing` flag and the next state. -/
def Traverse (n : Tree V) (f : σ → Int → V → Bool × σ) (s : σ) : Bool × σ :=
  match n with
  | .nil => (true, s)
  | .node k v l r _ =>
    let p1 := Traverse l f s
    if p1.1 = false then (false, p1.2)
    else
      let p2 := f p1.2 k v
      if p2.1 = false then (false, p2.2)
      else Traverse r f p2.2

/-- Go `heightFrom(key, count, n)`: 1-based depth of `key`, `0` if absent. -/
def heightFrom (key : Int) (count : Int) : Tree V → Int
  | .nil => 0
  | .node k _ l r _ =>
    if key < k then heightFrom key (count + 1) l
    else if key > k then heightFrom key (count + 1) r
    else count + 1

/-- Go `HeightFrom(key, n)`. -/
def HeightFrom (key : Int) (n : Tree V) : Int := heightFrom key 0 n

/-! ## Specification-side functions -/

/-- In-order key/value listing of a snapshot (the sequence an uninterrupted
`Traverse` visits). -/
def toList : Tree V → List (Int × V)
  | .nil => []
  | .node k v l r _ => toList l ++ (k, v) :: toList r

/-- Keys of an association list. -/
def keysL (xs : List (Int × V)) : List Int := xs.map Prod.fst

/-- In-order keys of a snapshot. -/
def keysT (t : Tree V) : List Int := keysL (toList t)

/-- Number of nodes reachable from a root. -/
def count : Tree V → Nat
  | .nil => 0
  | .node _ _ l r _ => count l + 1 + count r

/-- True subtree height (`0` for nil), ignoring the cached `height` fields. -/
def realH : Tree V → Int
  | .nil => 0
  | .node _ _ l r _ => 1 + max (realH l) (realH r)

/-- Every cached `height` field equals one plus the larger true child
height. -/
def accB : Tree V → Bool
  | .nil => true
  | .node _ _ l r h =>
    accB l && accB r && decide (h = 1 + max (realH l) (realH r))

/-- The AVL balance bound: at every node the true child heights differ by at
most one. -/
def avlB : Tree V → Bool
  | .nil => true
  | .node _ _ l r _ =>
    avlB l && avlB r && decide ((realH l - realH r).natAbs ≤ 1)

/-- Insertion into a key-sorted association list, the list-level meaning of
`insert`: replace the binding if the key is present, otherwise splice the new
binding in front of the first larger key. -/
def linsert (key : Int) (value : V) : List (Int × V) → List (Int × V)
  | [] => [(key, value)]
  | (a, b) :: rest =>
    if key < a then (key, value) :: (a, b) :: rest
    else if key > a then (a, b) :: linsert key value rest
    else (key, value) :: rest

/-- First binding of a key in an association list. -/
def lookupKey (key : Int) : List (Int × V) → Option V
  | [] => none
  | (a, b) :: rest => if key = a then some b else lookupKey key rest

/-- Early-stopping in-order fold, the list-level meaning of `Traverse`: feed
the bindings to the visitor in order, stop at the first `false`. -/
def foldVisit (f : σ → Int → V → Bool × σ) : List (Int × V) → σ → Bool × σ
  | [], s => (true, s)
  | (k, v) :: rest, s =>
    let p := f s k v
    if p.1 then foldVisit f rest p.2 else (false, p.2)

/-- The subtree rooted at the node holding `key` (binary-search descent). -/
def subtreeAt (key : Int) : Tree V → Option (Tree V)
  | .nil => none
  | .node k v l r h =>
    if key < k then subtreeAt key l
    else if key > k then subtreeAt key r
    else some (.node k v l r h)

/-! ## Writer operations and reachable states -/

/-- A single writer call. -/
inductive Op (V : Type) where
  | insert (key : Int) (value : V) : Op V
  | dropLeft : Op V
deriving DecidableEq

/-- Apply one writer call to the handle (`none`: the call panicked). -/
def applyOp : Op V → BinaryTree V → Option (BinaryTree V)
  | .insert key value, t => Insert key value t
  | .dropLeft, t => some (DropLeft t)

/-- Run a sequence of writer calls from a given handle state. -/
def runFrom : BinaryTree V → List (Op V) → Option (BinaryTree V)
  | t, [] => some t
  | t, op :: ops =>
    match applyOp op t with
    | none => none
    | some t1 => runFrom t1 ops

/-- Run a sequence of writer calls from `New()`. -/
def run (ops : List (Op V)) : Option (BinaryTree V) := runFrom New ops

/-- Handle states reachable from `New()` by successful writer calls. -/
inductive Reach : BinaryTree V → Prop where
  | new : Reach New
  | ins {t t1 : BinaryTree V} {key : Int} {value : V} :
      Reach t → Insert key value t = some t1 → Reach t1
  | drop {t : BinaryTree V} : Reach t → Reach (DropLeft t)

/-! ## Heap embedding

The same code once more, with pointers explicit: a node lives at an address
(an index into a list), `&Node{...}` appends to the list, and each Go field
assignment is a store at an address.  This embedding is used to verify the
copy-on-write discipline: no operation ever writes to an address that existed
before the operation started, so a previously obtained root keeps denoting
the same snapshot.  Recursions that in Go follow pointers take a fuel
argument, since an arbitrary heap value could contain cycles. -/

/-- The `Node` struct in the heap embedding: child pointers are addresses,
`Option.none` being the nil pointer. -/
structure HNode (V : Type) where
  key : Int
  value : V
  left : Option Nat
  right : Option Nat
  height : Int
deriving DecidableEq

/-- A heap of nodes; the address of a node is its index. -/
abbrev Heap (V : Type) := List (HNode V)

/-- Dereference an address. -/
def hget (h : Heap V) (a : Nat) : Option (HNode V) := h[a]?

/-- Go `&Node{...}`: allocate at the end of the heap, returning the address. -/
def alloc (h : Heap V) (n : HNode V) : Heap V × Nat := (h ++ [n], h.length)

/-- Go `p.height = e`. -/
def setHeight (h : Heap V) (a : Nat) (v : Int) : Heap V :=
  match hget h a with
  | none => h
  | some n => h.set a { n with height := v }

/-- Go `p.left = q`. -/
def setLeft (h : Heap V) (a : Nat) (p : Option Nat) : Heap V :=
  match hget h a with
  | none => h
  | some n => h.set a { n with left := p }

/-- Go `p.right = q`. -/
def setRight (h : Heap V) (a : Nat) (p : Option Nat) : Heap V :=
  match hget h a with
  | none => h
  | some n => h.set a { n with right := p }

/-- Stored height of a pointer, `0` for nil (heap version of `heightField`);
`none` only on a dangling address. -/
def heightFieldH (h : Heap V) : Option Nat → Option Int
  | none => some 0
  | some a => (hget h a).map HNode.height

/-- Heap version of Go `findHeight(l, r)`. -/
def findHeightH (h : Heap V) (l r : Option Nat) : Option Int :=
  match heightFieldH h l, heightFieldH h r with
  | some hl, some hr => some (if hl > hr then hl + 1 else hr + 1)
  | _, _ => none

/-- Heap version of Go `findNodeHeight(n)`. -/
def findNodeHeightH (h : Heap V) : Option Nat → Option Int
  | none => some 0
  | some a =>
    match hget h a with
    | none => none
    | some n => findHeightH h n.left n.right

/-- Heap version of Go `rightRotate(y)`: two allocations, then the two
height stores, in source order. -/
def rightRotateH (h : Heap V) (yp : Option Nat) : Option (Heap V × Nat) :=
  match yp with
  | none => none
  | some ya =>
    match hget h ya with
    | none => none
    | some y =>
      match y.left with
      | none => none
      | some xa =>
        match hget h xa with
        | none => none
        | some x =>
          let p1 := alloc h { key := y.key, value := y.value, left := x.right, right := y.right, height := 0 }
          let p2 := alloc p1.1 { key := x.key, value := x.value, left := x.left, right := some p1.2, height := 0 }
          match findNodeHeightH p2.1 (some p1.2) with
          | none => none
          | some hy =>
            let h3 := setHeight p2.1 p1.2 hy
            match findNodeHeightH h3 (some p2.2) with
            | none => none
            | some hx => some (setHeight h3 p2.2 hx, p2.2)

/-- Heap version of Go `leftRotate(x)`. -/
def leftRotateH (h : Heap V) (xp : Option Nat) : Option (Heap V × Nat) :=
  match xp with
  | none => none
  | some xa =>
    match hget h xa with
    | none => none
    | some x =>
      match x.right with
      | none => none
      | some ya =>
        match hget h ya with
        | none => none
        | some y =>
          let p1 := alloc h { key := x.key, value := x.value, left := x.left, right := y.left, height := 0 }
          let p2 := alloc p1.1 { key := y.key, value := y.value, left := some p1.2, right := y.right, height := 0 }
          match findNodeHeightH p2.1 (some p1.2) with
          | none => none
          | some hx =>
            let h3 := setHeight p2.1 p1.2 hx
            match findNodeHeightH h3 (some p2.2) with
            | none => none
            | some hy => some (setHeight h3 p2.2 hy, p2.2)

/-- Heap version of Go `balance(n, key)`.  The only stores into an existing
node are `n.left = ...` / `n.right = ...` at the argument address itself (a
node the caller just allocated). -/
def balanceH (h : Heap V) (np : Option Nat) (key : Int) : Option (Heap V × Nat) :=
  match np with
  | none => none
  | some na =>
    match hget h na with
    | none => none
    | some n =>
      match findNodeHeightH h n.left, findNodeHeightH h n.right with
      | some hl, some hr =>
        let b := hl - hr
        if b > 1 then
          match n.left with
          | none => none
          | some la =>
            match hget h la with
            | none => none
            | some l =>
              if key < l.key then rightRotateH h (some na)
              else if key > l.key then
                match leftRotateH h n.left with
                | none => none
                | some p => rightRotateH (setLeft p.1 na (some p.2)) (some na)
              else some (h, na)
        else if b < -1 then
          match n.right with
          | none => none
          | some ra =>
            match hget h ra with
            | none => none
            | some r =>
              if key > r.key then leftRotateH h (some na)
              else if key < r.key then
                if n.left.isNone || r.left.isNone then some (h, na)
                else
                  match rightRotateH h n.right with
                  | none => none
                  | some p => leftRotateH (setRight p.1 na (some p.2)) (some na)
              else some (h, na)
        else some (h, na)
      | _, _ => none

/-- Heap version of Go `insert(key, value, n)` (fuelled). -/
def insertH (fuel : Nat) (key : Int) (value : V) (h : Heap V) (np : Option Nat) :
    Option (Heap V × Nat) :=
  match fuel with
  | 0 => none
  | fuel + 1 =>
    match np with
    | none => some (alloc h { key := key, value := value, left := none, right := none, height := 1 })
    | some na =>
      match hget h na with
      | none => none
      | some n =>
        if key < n.key then
          match insertH fuel key value h n.left with
          | none => none
          | some q =>
            let p := alloc q.1 { key := n.key, value := n.value, left := some q.2, right := n.right, height := 0 }
            match findHeightH p.1 (some q.2) n.right with
            | none => none
            | some hh => balanceH (setHeight p.1 p.2 hh) (some p.2) key
        else if key > n.key then
          match insertH fuel key value h n.right with
          | none => none
          | some q =>
            let p := alloc q.1 { key := n.key, value := n.value, left := n.left, right := some q.2, height := 0 }
            match findHeightH p.1 n.left (some q.2) with
            | none => none
            | some hh => balanceH (setHeight p.1 p.2 hh) (some p.2) key
        else
          some (alloc h { key := key, value := value, left := n.left, right := n.right, height := n.height })

/-- Heap version of Go `dropLeft(n)` (fuelled). -/
def dropLeftH (fuel : Nat) (h : Heap V) (np : Option Nat) : Option (Heap V × Option Nat) :=
  match fuel with
  | 0 => none
  | fuel + 1 =>
    match np with
    | none => some (h, none)
    | some na =>
      match hget h na with
      | none => none
      | some n =>
        match n.left with
        | none => some (h, n.right)
        | some la =>
          match dropLeftH fuel h (some la) with
          | none => none
          | some q =>
            let p := alloc q.1 { key := n.key, value := n.value, left := q.2, right := n.right, height := 0 }
            match findNodeHeightH p.1 (some p.2) with
            | none => none
            | some hh => some (setHeight p.1 p.2 hh, some p.2)

/-- In-order key/value sequence of a snapshot in the heap embedding: what an
uninterrupted `Traverse` of that root visits (fuelled). -/
def inorderH (fuel : Nat) (h : Heap V) (np : Option Nat) : Option (List (Int × V)) :=
  match fuel with
  | 0 => none
  | fuel + 1 =>
    match np with
    | none => some []
    | some a =>
      match hget h a with
      | none => none
      | some n =>
        match inorderH fuel h n.left, inorderH fuel h n.right with
        | some ls, some rs => some (ls ++ (n.key, n.value) :: rs)
        | _, _ => none

/-- Apply one writer call in the heap embedding; the published state is the
heap together with the root pointer. -/
def applyOpH (fuel : Nat) : Op V → Heap V × Option Nat → Option (Heap V × Option Nat)
  | .insert key value, s =>
    match insertH fuel key value s.1 s.2 with
    | none => none
    | some p => some (p.1, some p.2)
  | .dropLeft, s => dropLeftH fuel s.1 s.2

/-- Run writer calls in the heap embedding from a given state. -/
def runHFrom (fuel : Nat) : Heap V × Option Nat → List (Op V) → Option (Heap V × Option Nat)
  | s, [] => some s
  | s, op :: ops =>
    match applyOpH fuel op s with
    | none => none
    | some s1 => runHFrom fuel s1 ops

/-- Run writer calls in the heap embedding from the empty tree. -/
def runH (fuel : Nat) (ops : List (Op V)) : Option (Heap V × Option Nat) :=
  runHFrom fuel ([], none) ops

end GoBinaryTree

/-! ## List-level lemmas -/

namespace GoBinaryTree

variable {V : Type} {σ : Type}

theorem toList_node (k : Int) (v : V) (l r : Tree V) (h : Int) :
    toList (.node k v l r h) = toList l ++ (k, v) :: toList r := rfl

theorem toList_node_ne_nil (k : Int) (v : V) (l r : Tree V) (h : Int) :
    toList (.node k v l r h) ≠ [] := by
  simp [toList]

theorem keysL_append (xs ys : List (Int × V)) :
    keysL (xs ++ ys) = keysL xs ++ keysL ys := by
  simp [keysL]

theorem keysL_cons (p : Int × V) (xs : List (Int × V)) :
    keysL (p :: xs) = p.1 :: keysL xs := rfl

theorem mem_keysL {a : Int} {xs : List (Int × V)} :
    a ∈ keysL xs ↔ ∃ w, (a, w) ∈ xs := by
  constructor
  · intro h
    obtain ⟨p, hp, he⟩ := List.mem_map.mp h
    exact ⟨p.2, by simpa [← he] using hp⟩
  · rintro ⟨w, hw⟩
    exact List.mem_map.mpr ⟨(a, w), hw, rfl⟩

theorem linsert_append_lt {key : Int} (v : V) {a : Int} (w : V) (xs ys : List (Int × V))
    (hka : key < a) :
    linsert key v (xs ++ (a, w) :: ys) = linsert key v xs ++ (a, w) :: ys := by
  induction xs with
  | nil => simp [linsert, hka]
  | cons p xs ih =>
    obtain ⟨c, d⟩ := p
    by_cases h1 : key < c
    · simp [linsert, h1]
    · by_cases h2 : key > c
      · simp [linsert, h1, h2, ih]
      · simp [linsert, h1, h2]

theorem linsert_append_ge {key : Int} (v : V) {xs : List (Int × V)} (ys : List (Int × V))
    (hall : ∀ p ∈ xs, p.1 < key) :
    linsert key v (xs ++ ys) = xs ++ linsert key v ys := by
  induction xs with
  | nil => simp
  | cons p xs ih =>
    obtain ⟨c, d⟩ := p
    have hc : c < key := hall (c, d) (by simp)
    have h1 : ¬ key < c := by omega
    have h2 : key > c := hc
    simp only [List.cons_append, linsert, if_neg h1, if_pos h2, List.append_eq]
    rw [ih (fun p hp => hall p (by simp [hp]))]

theorem keysL_linsert_mem {a key : Int} (v : V) (xs : List (Int × V)) :
    a ∈ keysL (linsert key v xs) ↔ a = key ∨ a ∈ keysL xs := by
  induction xs with
  | nil => simp [linsert, keysL]
  | cons p xs ih =>
    obtain ⟨c, d⟩ := p
    by_cases h1 : key < c
    · simp only [linsert, if_pos h1, keysL_cons, List.mem_cons]
    · by_cases h2 : key > c
      · simp only [linsert, if_neg h1, if_pos h2, keysL_cons] at *
        simp only [List.mem_cons, ih]
        tauto
      · have hkc : key = c := by omega
        subst hkc
        simp only [linsert, if_neg h1, if_neg h2, keysL_cons, List.mem_cons]
        tauto

theorem linsert_length {key : Int} (v : V) {xs : List (Int × V)}
    (hs : List.Pairwise (· < ·) (keysL xs)) :
    (linsert key v xs).length =
      if key ∈ keysL xs then xs.length else xs.length + 1 := by
  induction xs with
  | nil => simp [linsert, keysL]
  | cons p xs ih =>
    obtain ⟨c, d⟩ := p
    rw [keysL_cons] at hs
    obtain ⟨hhd, htl⟩ := List.pairwise_cons.mp hs
    by_cases h1 : key < c
    · have hnot : key ∉ keysL ((c, d) :: xs) := by
        rw [keysL_cons]
        simp only [List.mem_cons]
        rintro (rfl | hmem)
        · omega
        · exact absurd (hhd key hmem) (by omega)
      simp [linsert, h1, hnot]
    · by_cases h2 : key > c
      · have hne : key ≠ c := by omega
        simp only [linsert, if_neg h1, if_pos h2, List.length_cons, keysL_cons,
          List.mem_cons, ih htl]
        by_cases hmem : key ∈ keysL xs
        · simp [hmem, hne]
        · simp [hmem, hne]
      · have hkc : key = c := by omega
        subst hkc
        simp [linsert, h1, h2, keysL_cons]

theorem linsert_pairwise {key : Int} (v : V) {xs : List (Int × V)}
    (hs : List.Pairwise (· < ·) (keysL xs)) :
    List.Pairwise (· < ·) (keysL (linsert key v xs)) := by
  induction xs with
  | nil => simp [linsert, keysL]
  | cons p xs ih =>
    obtain ⟨c, d⟩ := p
    rw [keysL_cons] at hs
    obtain ⟨hhd, htl⟩ := List.pairwise_cons.mp hs
    by_cases h1 : key < c
    · simp only [linsert, if_pos h1, keysL_cons]
      refine List.pairwise_cons.mpr ⟨?_, hs⟩
      intro a ha
      rcases List.mem_cons.mp ha with rfl | ha
      · exact h1
      · exact lt_trans h1 (hhd a ha)
    · by_cases h2 : key > c
      · simp only [linsert, if_neg h1, if_pos h2, keysL_cons]
        refine List.pairwise_cons.mpr ⟨?_, ih htl⟩
        intro a ha
        rcases (keysL_linsert_mem v xs).mp ha with rfl | ha
        · exact h2
        · exact hhd a ha
      · have hkc : key = c := by omega
        subst hkc
        simp only [linsert, if_neg h1, if_neg h2, keysL_cons]
        exact List.pairwise_cons.mpr ⟨hhd, htl⟩

theorem lookupKey_linsert (key : Int) (v : V) (xs : List (Int × V)) :
    lookupKey key (linsert key v xs) = some v := by
  induction xs with
  | nil => simp [linsert, lookupKey]
  | cons p xs ih =>
    obtain ⟨c, d⟩ := p
    by_cases h1 : key < c
    · simp [linsert, h1, lookupKey]
    · by_cases h2 : key > c
      · have hne : key ≠ c := by omega
        simp [linsert, h1, h2, lookupKey, hne, ih]
      · simp [linsert, h1, h2, lookupKey]

theorem foldVisit_append (f : σ → Int → V → Bool × σ) (xs ys : List (Int × V)) (s : σ) :
    foldVisit f (xs ++ ys) s =
      if (foldVisit f xs s).1 then foldVisit f ys (foldVisit f xs s).2
      else (false, (foldVisit f xs s).2) := by
  induction xs generalizing s with
  | nil => simp [foldVisit]
  | cons p xs ih =>
    obtain ⟨k, v⟩ := p
    simp only [List.cons_append, foldVisit]
    by_cases hb : (f s k v).1
    · simp [hb, ih]
    · simp [hb]

theorem foldVisit_all_true (f : σ → Int → V → Bool × σ) (xs : List (Int × V)) (s : σ)
    (hall : ∀ s1 k v, (f s1 k v).1 = true) :
    foldVisit f xs s = (true, List.foldl (fun s1 p => (f s1 p.1 p.2).2) s xs) := by
  induction xs generalizing s with
  | nil => rfl
  | cons p xs ih =>
    obtain ⟨k, v⟩ := p
    simp [foldVisit, hall, ih]

end GoBinaryTree

/-! ## Rotation lemmas -/

namespace GoBinaryTree

variable {V : Type}

theorem accB_node {k : Int} {v : V} {l r : Tree V} {h : Int} :
    accB (.node k v l r h) = true ↔
      accB l = true ∧ accB r = true ∧ h = 1 + max (realH l) (realH r) := by
  simp [accB, Bool.and_eq_true, decide_eq_true_eq, and_assoc]

theorem heightField_eq_realH {t : Tree V} (h : accB t = true) :
    heightField t = realH t := by
  cases t with
  | nil => rfl
  | node k v l r hh =>
    rw [heightField, realH, (accB_node.mp h).2.2]

theorem findHeight_eq_realH {l r : Tree V} (hl : accB l = true) (hr : accB r = true) :
    findHeight l r = 1 + max (realH l) (realH r) := by
  rw [findHeight]
  simp only [heightField_eq_realH hl, heightField_eq_realH hr]
  by_cases hgt : realH l > realH r
  · rw [if_pos hgt, max_eq_left (le_of_lt hgt)]
    omega
  · rw [if_neg hgt, max_eq_right (not_lt.mp hgt)]
    omega

theorem accB_node_findHeight {k : Int} {v : V} {l r : Tree V}
    (hl : accB l = true) (hr : accB r = true) :
    accB (.node k v l r (findHeight l r)) = true :=
  accB_node.mpr ⟨hl, hr, findHeight_eq_realH hl hr⟩

theorem rightRotate_toList {t m : Tree V} (h : rightRotate t = some m) :
    toList m = toList t := by
  cases t with
  | nil => simp [rightRotate] at h
  | node yk yv yl yr yh =>
    cases yl with
    | nil => simp [rightRotate] at h
    | node xk xv xl xr xh =>
      simp only [rightRotate] at h
      injection h with h
      subst h
      simp [toList]

theorem leftRotate_toList {t m : Tree V} (h : leftRotate t = some m) :
    toList m = toList t := by
  cases t with
  | nil => simp [leftRotate] at h
  | node xk xv xl xr xh =>
    cases xr with
    | nil => simp [leftRotate] at h
    | node yk yv yl yr yh =>
      simp only [leftRotate] at h
      injection h with h
      subst h
      simp [toList]

theorem rightRotate_acc {yk : Int} {yv : V} {x yr : Tree V} {yh : Int} {m : Tree V}
    (h : rightRotate (.node yk yv x yr yh) = some m)
    (hx : accB x = true) (hyr : accB yr = true) : accB m = true := by
  cases x with
  | nil => simp [rightRotate] at h
  | node xk xv xl xr xh =>
    simp only [rightRotate] at h
    injection h with h
    subst h
    obtain ⟨hxl, hxr, _⟩ := accB_node.mp hx
    exact accB_node_findHeight hxl (accB_node_findHeight hxr hyr)

theorem leftRotate_acc {xk : Int} {xv : V} {xl y : Tree V} {xh : Int} {m : Tree V}
    (h : leftRotate (.node xk xv xl y xh) = some m)
    (hxl : accB xl = true) (hy : accB y = true) : accB m = true := by
  cases y with
  | nil => simp [leftRotate] at h
  | node yk yv yl yr yh =>
    simp only [leftRotate] at h
    injection h with h
    subst h
    obtain ⟨hyl, hyr, _⟩ := accB_node.mp hy
    exact accB_node_findHeight (accB_node_findHeight hxl hyl) hyr

end GoBinaryTree

/-! ## Balance lemmas -/

namespace GoBinaryTree

variable {V : Type}

theorem leftRotate_acc_any {l m : Tree V} (h : leftRotate l = some m)
    (hl : accB l = true) : accB m = true := by
  cases l with
  | nil => simp [leftRotate] at h
  | node xk xv xl xr xh =>
    obtain ⟨h1, h2, _⟩ := accB_node.mp hl
    exact leftRotate_acc h h1 h2

theorem rightRotate_acc_any {l m : Tree V} (h : rightRotate l = some m)
    (hl : accB l = true) : accB m = true := by
  cases l with
  | nil => simp [rightRotate] at h
  | node yk yv yl yr yh =>
    obtain ⟨h1, h2, _⟩ := accB_node.mp hl
    exact rightRotate_acc h h1 h2

theorem balance_cases {k : Int} {v : V} {l r : Tree V} {hh key : Int} {m : Tree V}
    (h : balance (.node k v l r hh) key = some m) :
    m = .node k v l r hh ∨
    rightRotate (.node k v l r hh) = some m ∨
    (∃ l2, leftRotate l = some l2 ∧ rightRotate (.node k v l2 r hh) = some m) ∨
    leftRotate (.node k v l r hh) = some m ∨
    (∃ r2, rightRotate r = some r2 ∧ leftRotate (.node k v l r2 hh) = some m) := by
  simp only [balance] at h
  split at h
  · split at h
    · exact absurd h (by simp)
    · split at h
      · exact Or.inr (Or.inl h)
      · split at h
        · split at h
          · exact absurd h (by simp)
          · rename_i l2 hl2
            exact Or.inr (Or.inr (Or.inl ⟨l2, hl2, h⟩))
        · exact Or.inl (by injection h with h; exact h.symm)
  · split at h
    · split at h
      · exact absurd h (by simp)
      · split at h
        · exact Or.inr (Or.inr (Or.inr (Or.inl h)))
        · split at h
          · split at h
            · exact Or.inl (by injection h with h; exact h.symm)
            · split at h
              · exact absurd h (by simp)
              · rename_i r2 hr2
                exact Or.inr (Or.inr (Or.inr (Or.inr ⟨r2, hr2, h⟩)))
          · exact Or.inl (by injection h with h; exact h.symm)
    · exact Or.inl (by injection h with h; exact h.symm)

end GoBinaryTree

/-! ## Insert and dropLeft lemmas -/

namespace GoBinaryTree

variable {V : Type}

theorem balance_toList {n m : Tree V} {key : Int} (h : balance n key = some m) :
    toList m = toList n := by
  cases n with
  | nil => simp [balance] at h
  | node k v l r hh =>
    rcases balance_cases h with rfl | hrr | ⟨l2, hl2, hrr⟩ | hlr | ⟨r2, hr2, hlr⟩
    · rfl
    · exact rightRotate_toList hrr
    · rw [rightRotate_toList hrr]
      simp [toList, leftRotate_toList hl2]
    · exact leftRotate_toList hlr
    · rw [leftRotate_toList hlr]
      simp [toList, rightRotate_toList hr2]

theorem balance_acc {n m : Tree V} {key : Int} (h : balance n key = some m)
    (hn : accB n = true) : accB m = true := by
  cases n with
  | nil => simp [balance] at h
  | node k v l r hh =>
    obtain ⟨hl, hr, _⟩ := accB_node.mp hn
    rcases balance_cases h with rfl | hrr | ⟨l2, hl2, hrr⟩ | hlr | ⟨r2, hr2, hlr⟩
    · exact hn
    · exact rightRotate_acc hrr hl hr
    · exact rightRotate_acc hrr (leftRotate_acc_any hl2 hl) hr
    · exact leftRotate_acc hlr hl hr
    · exact leftRotate_acc hlr hl (rightRotate_acc_any hr2 hr)

theorem insert_cases {key : Int} {value : V} {k : Int} {v : V} {l r : Tree V}
    {hh : Int} {t' : Tree V} {ok : Bool}
    (h : insert key value (.node k v l r hh) = some (t', ok)) :
    (key < k ∧ ∃ left, insert key value l = some (left, ok) ∧
        balance (.node k v left r (findHeight left r)) key = some t') ∨
    (key > k ∧ ∃ right, insert key value r = some (right, ok) ∧
        balance (.node k v l right (findHeight l right)) key = some t') ∨
    (key = k ∧ t' = .node key value l r hh ∧ ok = false) := by
  simp only [insert] at h
  by_cases hlt : key < k
  · rw [if_pos hlt] at h
    cases heq : insert key value l with
    | none => rw [heq] at h; simp at h
    | some p =>
      obtain ⟨left, ok1⟩ := p
      rw [heq] at h
      dsimp only at h
      cases hbal : balance (.node k v left r (findHeight left r)) key with
      | none => rw [hbal] at h; simp at h
      | some m =>
        rw [hbal] at h
        dsimp only at h
        simp only [Option.some.injEq, Prod.mk.injEq] at h
        obtain ⟨rfl, rfl⟩ := h
        exact Or.inl ⟨hlt, left, rfl, hbal⟩
  · rw [if_neg hlt] at h
    by_cases hgt : key > k
    · rw [if_pos hgt] at h
      cases heq : insert key value r with
      | none => rw [heq] at h; simp at h
      | some p =>
        obtain ⟨right, ok1⟩ := p
        rw [heq] at h
        dsimp only at h
        cases hbal : balance (.node k v l right (findHeight l right)) key with
        | none => rw [hbal] at h; simp at h
        | some m =>
          rw [hbal] at h
          dsimp only at h
          simp only [Option.some.injEq, Prod.mk.injEq] at h
          obtain ⟨rfl, rfl⟩ := h
          exact Or.inr (Or.inl ⟨hgt, right, rfl, hbal⟩)
    · rw [if_neg hgt] at h
      simp only [Option.some.injEq, Prod.mk.injEq] at h
      obtain ⟨rfl, rfl⟩ := h.symm
      exact Or.inr (Or.inr ⟨by omega, rfl, rfl⟩)

theorem insert_acc {key : Int} {value : V} {t t' : Tree V} {ok : Bool}
    (h : insert key value t = some (t', ok)) (ha : accB t = true) : accB t' = true := by
  induction t generalizing t' ok with
  | nil =>
    simp only [insert, Option.some.injEq, Prod.mk.injEq] at h
    rw [← h.1]
    simp [accB, realH]
  | node k v l r hh ihl ihr =>
    obtain ⟨hal, har, hacc⟩ := accB_node.mp ha
    rcases insert_cases h with ⟨_, left, heq, hbal⟩ | ⟨_, right, heq, hbal⟩ | ⟨_, rfl, _⟩
    · exact balance_acc hbal (accB_node_findHeight (ihl heq hal) har)
    · exact balance_acc hbal (accB_node_findHeight hal (ihr heq har))
    · exact accB_node.mpr ⟨hal, har, hacc⟩

theorem keysT_node (k : Int) (v : V) (l r : Tree V) (h : Int) :
    keysT (.node k v l r h) = keysT l ++ k :: keysT r := by
  simp [keysT, toList, keysL]

theorem keysT_sorted_parts {k : Int} {v : V} {l r : Tree V} {hh : Int}
    (hs : List.Pairwise (· < ·) (keysT (.node k v l r hh))) :
    List.Pairwise (· < ·) (keysT l) ∧ List.Pairwise (· < ·) (keysT r) ∧
      (∀ a ∈ keysT l, a < k) ∧ (∀ a ∈ keysT r, k < a) := by
  rw [keysT_node] at hs
  obtain ⟨pwl, pwkr, hcross⟩ := List.pairwise_append.mp hs
  obtain ⟨hkr, pwr⟩ := List.pairwise_cons.mp pwkr
  exact ⟨pwl, pwr, fun a ha => hcross a ha k (List.mem_cons_self k _), hkr⟩

theorem insert_main {key : Int} {value : V} {t t' : Tree V} {ok : Bool}
    (hs : List.Pairwise (· < ·) (keysT t))
    (h : insert key value t = some (t', ok)) :
    toList t' = linsert key value (toList t) ∧ (ok = true ↔ key ∉ keysT t) := by
  induction t generalizing t' ok with
  | nil =>
    simp only [insert, Option.some.injEq, Prod.mk.injEq] at h
    obtain ⟨h1, h2⟩ := h
    constructor
    · rw [← h1]
      simp [toList, linsert]
    · simp [← h2, keysT, toList, keysL]
  | node k v l r hh ihl ihr =>
    obtain ⟨pwl, pwr, hlk, hkr⟩ := keysT_sorted_parts hs
    rcases insert_cases h with ⟨hlt, left, heq, hbal⟩ | ⟨hgt, right, heq, hbal⟩ | ⟨heqk, rfl, rfl⟩
    · obtain ⟨ihlist, ihok⟩ := ihl pwl heq
      constructor
      · rw [balance_toList hbal, toList_node, toList_node, ihlist,
          linsert_append_lt value v (toList l) (toList r) hlt]
      · rw [ihok, keysT_node]
        simp only [List.mem_append, List.mem_cons]
        constructor
        · intro hn
          rintro (hmem | rfl | hmem)
          · exact hn hmem
          · omega
          · exact absurd (hkr key hmem) (by omega)
        · intro hn hmem
          exact hn (Or.inl hmem)
    · obtain ⟨ihlist, ihok⟩ := ihr pwr heq
      have hall : ∀ p ∈ toList l, p.1 < key :=
        fun p hp => lt_trans (hlk p.1 (mem_keysL.mpr ⟨p.2, hp⟩)) hgt
      have hstep : linsert key value ((k, v) :: toList r) =
          (k, v) :: linsert key value (toList r) := by
        simp only [linsert]
        rw [if_neg (by omega), if_pos hgt]
      constructor
      · rw [balance_toList hbal, toList_node, toList_node, ihlist,
          linsert_append_ge value ((k, v) :: toList r) hall, hstep]
      · rw [ihok, keysT_node]
        simp only [List.mem_append, List.mem_cons]
        constructor
        · intro hn
          rintro (hmem | rfl | hmem)
          · exact absurd (hlk key hmem) (by omega)
          · omega
          · exact hn hmem
        · intro hn hmem
          exact hn (Or.inr (Or.inr hmem))
    · have hall : ∀ p ∈ toList l, p.1 < key := by
        intro p hp
        rw [heqk]
        exact hlk p.1 (mem_keysL.mpr ⟨p.2, hp⟩)
      have hstep : linsert key value ((k, v) :: toList r) =
          (key, value) :: toList r := by
        simp only [linsert]
        rw [if_neg (by omega), if_neg (by omega)]
      constructor
      · rw [toList_node, toList_node,
          linsert_append_ge value ((k, v) :: toList r) hall, hstep]
      · simp [keysT_node, heqk]

theorem dropLeft_toList (t : Tree V) : toList (dropLeft t) = (toList t).tail := by
  induction t with
  | nil => rfl
  | node k v l r hh ihl ihr =>
    cases l with
    | nil => simp [dropLeft, toList]
    | node lk lv ll lr lh =>
      calc toList (dropLeft (Tree.node k v (Tree.node lk lv ll lr lh) r hh))
          = toList (dropLeft (Tree.node lk lv ll lr lh)) ++ (k, v) :: toList r := rfl
        _ = (toList (Tree.node lk lv ll lr lh)).tail ++ (k, v) :: toList r := by rw [ihl]
        _ = (toList (Tree.node lk lv ll lr lh) ++ (k, v) :: toList r).tail :=
            (List.tail_append_of_ne_nil (toList_node_ne_nil lk lv ll lr lh)).symm
        _ = (toList (Tree.node k v (Tree.node lk lv ll lr lh) r hh)).tail := rfl

theorem dropLeft_acc {t : Tree V} (ha : accB t = true) : accB (dropLeft t) = true := by
  induction t with
  | nil => exact ha
  | node k v l r hh ihl ihr =>
    obtain ⟨hal, har, _⟩ := accB_node.mp ha
    cases l with
    | nil => exact har
    | node lk lv ll lr lh =>
      simp only [dropLeft]
      exact accB_node_findHeight (ihl hal) har

theorem count_eq_length (t : Tree V) : count t = (toList t).length := by
  induction t with
  | nil => rfl
  | node k v l r hh ihl ihr =>
    simp [count, toList, ihl, ihr]
    omega

end GoBinaryTree

/-! ## Traverse refinement and reachability invariant -/

namespace GoBinaryTree

variable {V : Type} {σ : Type}

theorem Traverse_eq_foldVisit (n : Tree V) (f : σ → Int → V → Bool × σ) (s : σ) :
    Traverse n f s = foldVisit f (toList n) s := by
  induction n generalizing s with
  | nil => rfl
  | node k v l r hh ihl ihr =>
    rw [toList_node, foldVisit_append]
    simp only [Traverse, ihl, ihr]
    rcases hp1 : foldVisit f (toList l) s with ⟨b1, s1⟩
    cases b1 with
    | false => simp
    | true =>
      simp only [Bool.true_eq_false, if_false, if_true]
      simp only [foldVisit]
      rcases hp2 : f s1 k v with ⟨b2, s2⟩
      cases b2 with
      | false => simp
      | true => simp

theorem keysL_tail (xs : List (Int × V)) : keysL xs.tail = (keysL xs).tail := by
  cases xs <;> rfl

theorem pairwise_tail {xs : List Int} (h : List.Pairwise (· < ·) xs) :
    List.Pairwise (· < ·) xs.tail := by
  cases xs with
  | nil => exact h
  | cons a xs => exact (List.pairwise_cons.mp h).2

theorem reach_of_runFrom {bt bt' : BinaryTree V} {ops : List (Op V)}
    (hr : Reach bt) (h : runFrom bt ops = some bt') : Reach bt' := by
  induction ops generalizing bt with
  | nil =>
    simp only [runFrom, Option.some.injEq] at h
    exact h ▸ hr
  | cons op ops ih =>
    simp only [runFrom] at h
    cases hop : applyOp op bt with
    | none => rw [hop] at h; simp at h
    | some bt1 =>
      rw [hop] at h
      have h1 : Reach bt1 := by
        cases op with
        | insert key value => exact Reach.ins hr hop
        | dropLeft =>
          simp only [applyOp, Option.some.injEq] at hop
          exact hop ▸ Reach.drop hr
      exact ih h1 h

theorem reach_of_run {ops : List (Op V)} {bt : BinaryTree V}
    (h : run ops = some bt) : Reach bt :=
  reach_of_runFrom Reach.new h

theorem reach_inv {bt : BinaryTree V} (h : Reach bt) :
    List.Pairwise (· < ·) (keysT bt.root) ∧ accB bt.root = true ∧
      bt.added - bt.dropped ≤ ((toList bt.root).length : Int) := by
  induction h with
  | new => simp [New, keysT, toList, keysL, accB]
  | ins hr hins ih =>
    rename_i t t1 key value
    obtain ⟨pw, acc, cnt⟩ := ih
    simp only [Insert] at hins
    cases heq : insert key value t.root with
    | none => rw [heq] at hins; simp at hins
    | some p =>
      obtain ⟨rt, ok⟩ := p
      rw [heq] at hins
      dsimp only at hins
      injection hins with hins
      subst hins
      obtain ⟨hlist, hok⟩ := insert_main pw heq
      refine ⟨?_, insert_acc heq acc, ?_⟩
      · show List.Pairwise _ (keysT rt)
        rw [keysT, hlist]
        exact linsert_pairwise value pw
      · show t.added + (if ok then 1 else 0) - t.dropped ≤ ((toList rt).length : Int)
        rw [hlist, linsert_length value pw]
        by_cases hmem : key ∈ keysL (toList t.root)
        · have hokf : ok = false := by
            cases ok with
            | false => rfl
            | true => exact absurd hmem (hok.mp rfl)
          rw [if_pos hmem, hokf]
          simpa using cnt
        · have hokt : ok = true := hok.mpr hmem
          rw [if_neg hmem, hokt]
          push_cast
          omega
  | drop hr ih =>
    obtain ⟨pw, acc, cnt⟩ := ih
    refine ⟨?_, dropLeft_acc acc, ?_⟩
    · show List.Pairwise _ (keysT (dropLeft _))
      rw [keysT, dropLeft_toList, keysL_tail]
      exact pairwise_tail pw
    · simp only [DropLeft]
      rw [dropLeft_toList, List.length_tail]
      omega

end GoBinaryTree

/-! ## Run-level helpers -/

namespace GoBinaryTree

variable {V : Type} {σ : Type}

theorem Insert_elim {key : Int} {value : V} {t bt1 : BinaryTree V}
    (h : Insert key value t = some bt1) :
    ∃ rt ok, insert key value t.root = some (rt, ok) ∧
      bt1 = { root := rt, added := t.added + (if ok then 1 else 0), dropped := t.dropped } := by
  simp only [Insert] at h
  cases heq : insert key value t.root with
  | none => rw [heq] at h; simp at h
  | some p =>
    obtain ⟨rt, ok⟩ := p
    rw [heq] at h
    dsimp only at h
    injection h with h
    exact ⟨rt, ok, rfl, h.symm⟩

theorem foldl_append_singleton (xs : List (Int × V)) (s : List (Int × V)) :
    List.foldl (fun s1 p => s1 ++ [p]) s xs = s ++ xs := by
  induction xs generalizing s with
  | nil => simp
  | cons p xs ih => simp [ih]

theorem Traverse_collect (n : Tree V) :
    Traverse n (fun s k v => (true, s ++ [(k, v)])) ([] : List (Int × V)) =
      (true, toList n) := by
  rw [Traverse_eq_foldVisit]
  rw [foldVisit_all_true _ _ _ (fun _ _ _ => rfl)]
  rw [foldl_append_singleton]
  simp

theorem runFrom_inserts_keys (ps : List (Int × V)) :
    ∀ (bt0 bt : BinaryTree V),
    List.Pairwise (· < ·) (keysT bt0.root) →
    runFrom bt0 (ps.map (fun p => Op.insert p.1 p.2)) = some bt →
    ∀ a : Int, a ∈ keysT bt.root ↔ a ∈ ps.map Prod.fst ∨ a ∈ keysT bt0.root := by
  induction ps with
  | nil =>
    intro bt0 bt hpw h a
    simp only [List.map_nil, runFrom, Option.some.injEq] at h
    subst h
    simp
  | cons p ps ih =>
    intro bt0 bt hpw h a
    obtain ⟨key, value⟩ := p
    simp only [List.map_cons, runFrom] at h
    cases hop : applyOp (Op.insert key value) bt0 with
    | none => rw [hop] at h; simp at h
    | some bt1 =>
      rw [hop] at h
      obtain ⟨rt, ok, heq, hbt1⟩ := Insert_elim hop
      obtain ⟨hlist, _⟩ := insert_main hpw heq
      have hroot : bt1.root = rt := by rw [hbt1]
      have hpw1 : List.Pairwise (· < ·) (keysT bt1.root) := by
        rw [hroot, keysT, hlist]
        exact linsert_pairwise value hpw
      have hkeys1 : ∀ b : Int, b ∈ keysT bt1.root ↔ b = key ∨ b ∈ keysT bt0.root := by
        intro b
        rw [hroot, keysT, hlist]
        exact keysL_linsert_mem value (toList bt0.root)
      rw [ih bt1 bt hpw1 h a]
      simp only [List.map_cons, List.mem_cons]
      rw [hkeys1 a]
      tauto

end GoBinaryTree

/-! ## Claim theorems -/

namespace GoBinaryTree

variable {V : Type} {σ : Type}

/-- C1 counterexample: the snapshot reached from the empty tree by
`Insert 10, Insert 30, Insert 20` has a node (the root) whose children's
heights differ by 2, so the AVL balance bound claimed for every reachable
snapshot is false (the height-cache equation still holds there). -/
theorem C1_counterexample :
    run [Op.insert 10 (), Op.insert 30 (), Op.insert 20 ()] =
      some { root := Tree.node 10 () .nil (.node 30 () (.node 20 () .nil .nil 1) .nil 2) 3,
             added := 3, dropped := 0 } ∧
    avlB (Tree.node 10 () .nil (.node 30 () (.node 20 () .nil .nil 1) .nil 2) 3) = false := by
  decide

/-- C1 (amended): in every snapshot reachable by `Insert`/`DropLeft` from the
empty tree, every node's cached `height` equals one plus the larger true
child height (`height(nil) = 0`); the AVL bound `|height(l) - height(r)| <= 1`
itself does not hold in all reachable snapshots. -/
theorem C1_heights_accurate {bt : BinaryTree V} (h : Reach bt) :
    accB (Root bt) = true :=
  (reach_inv h).2.1

theorem C1_witness :
    accB (Root ({ root := Tree.node 10 () .nil (.node 30 () (.node 20 () .nil .nil 1) .nil 2) 3,
                  added := 3, dropped := 0 } : BinaryTree Unit)) = true := by
  have h : run [Op.insert 10 (), Op.insert 30 (), Op.insert 20 ()] =
      some ({ root := Tree.node 10 () .nil (.node 30 () (.node 20 () .nil .nil 1) .nil 2) 3,
              added := 3, dropped := 0 } : BinaryTree Unit) := by decide
  exact C1_heights_accurate (reach_of_run h)

/-- C9: the code is not total on its reachable states: starting from `New()`,
the Insert sequence 1, 8, 2, 7, 6, 4, 3, 7, 5 succeeds and the next
`Insert 8` dereferences a nil pointer inside the unguarded Left-Right branch
of `balance` (`leftRotate` of a node whose right child is nil), a run-time
panic, modelled here as the run evaluating to `none`. -/
theorem C9_insert_not_total :
    run ([Op.insert 1 (), Op.insert 8 (), Op.insert 2 (), Op.insert 7 (),
      Op.insert 6 (), Op.insert 4 (), Op.insert 3 (), Op.insert 7 (),
      Op.insert 5 (), Op.insert 8 ()] : List (Op Unit)) = none := by
  decide

/-- C10: in the Right-Left branch, the guard also fires when `node.left` is
nil even though the grandchild `node.right.left` exists: `balance` returns
the node unrotated. -/
theorem C10_right_left_nil_left_skips {k : Int} {v : V} {rk : Int} {rv : V}
    {rlk : Int} {rlv : V} {rll rlr : Tree V} {rlh : Int} {rr : Tree V} {rh h key : Int}
    (hb : findNodeHeight (Tree.nil : Tree V) -
        findNodeHeight (Tree.node rk rv (.node rlk rlv rll rlr rlh) rr rh) < -1)
    (hkey : key < rk) :
    balance (.node k v .nil (.node rk rv (.node rlk rlv rll rlr rlh) rr rh) h) key =
      some (.node k v .nil (.node rk rv (.node rlk rlv rll rlr rlh) rr rh) h) := by
  simp only [balance]
  rw [if_neg (by omega), if_pos hb, if_neg (by omega), if_pos hkey]
  simp [Tree.isNil]

theorem C10_witness :
    (findNodeHeight (Tree.nil : Tree Unit) -
        findNodeHeight (Tree.node 30 () (.node 20 () .nil .nil 1) .nil 2) < -1) ∧
    balance (.node 10 () .nil (.node 30 () (.node 20 () .nil .nil 1) .nil 2) 3) 15 =
      some (.node 10 () .nil (.node 30 () (.node 20 () .nil .nil 1) .nil 2) 3) :=
  ⟨by decide, C10_right_left_nil_left_skips (by decide) (by decide)⟩

/-- C5 counterexample: a run that performs a `DropLeft` (on a non-empty tree)
and afterwards only `Insert` calls ends in an `Insert` that dereferences a nil
child during rebalancing (the unguarded Left-Right branch), so the claim that
no Insert following a DropLeft ever dereferences a nil child is false. -/
theorem C5_counterexample :
    run ([Op.insert 1 (), Op.dropLeft, Op.insert 1 (), Op.insert 8 (),
      Op.insert 2 (), Op.insert 7 (), Op.insert 6 (), Op.insert 4 (),
      Op.insert 3 (), Op.insert 7 (), Op.insert 5 (), Op.insert 8 ()] : List (Op Unit)) = none := by
  decide

/-- C5 (amended): whenever `balance` sees balance factor `< -1` and descent
key less than `node.right.Key` but `node.right.left` nil, it returns the node
unrotated without dereferencing the absent grandchild.  (The stronger claim
that no Insert after a DropLeft ever dereferences a nil child is refuted by
the counterexample: the Left-Right branch has no such guard.) -/
theorem C5_right_left_guard {k : Int} {v : V} {l : Tree V} {rk : Int} {rv : V}
    {rr : Tree V} {rh h key : Int}
    (hb : findNodeHeight l - findNodeHeight (Tree.node rk rv .nil rr rh) < -1)
    (hkey : key < rk) :
    balance (.node k v l (.node rk rv .nil rr rh) h) key =
      some (.node k v l (.node rk rv .nil rr rh) h) := by
  simp only [balance]
  rw [if_neg (by omega), if_pos hb, if_neg (by omega), if_pos hkey]
  simp [Tree.isNil]

theorem C5_witness :
    (findNodeHeight (Tree.nil : Tree Unit) -
        findNodeHeight (Tree.node 30 () .nil (.node 40 () .nil .nil 1) 2) < -1) ∧
    balance (.node 10 () .nil (.node 30 () .nil (.node 40 () .nil .nil 1) 2) 3) 20 =
      some (.node 10 () .nil (.node 30 () .nil (.node 40 () .nil .nil 1) 2) 3) :=
  ⟨by decide, C5_right_left_guard (by decide) (by decide)⟩

end GoBinaryTree

namespace GoBinaryTree

variable {V : Type} {σ : Type}

theorem nil_of_toList_eq_nil {t : Tree V} (h : toList t = []) : t = .nil := by
  cases t with
  | nil => rfl
  | node k v l r hh => exact absurd h (toList_node_ne_nil k v l r hh)

/-- C2: for every finite sequence of `Insert` calls from `New()` whose run
completes, the in-order `Traverse` of the resulting root visits keys in
strictly ascending order, and a key is visited exactly when it was inserted
(so each inserted key appears exactly once). -/
theorem C2_inserts_sorted (ps : List (Int × V)) (bt : BinaryTree V)
    (h : run (ps.map (fun p => Op.insert p.1 p.2)) = some bt) :
    List.Pairwise (· < ·)
      (keysL (Traverse (Root bt) (fun s k v => (true, s ++ [(k, v)])) []).2) ∧
    ∀ a : Int, (a ∈ keysL (Traverse (Root bt) (fun s k v => (true, s ++ [(k, v)])) []).2 ↔
      a ∈ ps.map Prod.fst) := by
  have hcol : (Traverse (Root bt) (fun s k v => (true, s ++ [(k, v)])) ([] : List (Int × V))).2
      = toList (Root bt) := by
    rw [Traverse_collect]
  have hreach := reach_of_run h
  have hpw := (reach_inv hreach).1
  have hkeys := runFrom_inserts_keys ps New bt (by simp [New, keysT, toList, keysL]) h
  rw [hcol]
  constructor
  · exact hpw
  · intro a
    rw [show keysL (toList (Root bt)) = keysT bt.root from rfl, hkeys a]
    simp [New, keysT, toList, keysL]

theorem C2_witness :
    (List.Pairwise (· < ·)
      (keysL (Traverse
        (Root ({ root := Tree.node 9 () (.node 7 () .nil .nil 1) (.node 11 () .nil .nil 1) 2,
                 added := 3, dropped := 0 } : BinaryTree Unit))
        (fun s k v => (true, s ++ [(k, v)])) []).2)) ∧
    ∀ a : Int, (a ∈ keysL (Traverse
        (Root ({ root := Tree.node 9 () (.node 7 () .nil .nil 1) (.node 11 () .nil .nil 1) 2,
                 added := 3, dropped := 0 } : BinaryTree Unit))
        (fun s k v => (true, s ++ [(k, v)])) []).2 ↔
      a ∈ [(9, ()), (7, ()), (11, ())].map Prod.fst) := by
  have h : run ([(9, ()), (7, ()), (11, ())].map (fun p => Op.insert p.1 p.2)) =
      some ({ root := Tree.node 9 () (.node 7 () .nil .nil 1) (.node 11 () .nil .nil 1) 2,
              added := 3, dropped := 0 } : BinaryTree Unit) := by decide
  exact C2_inserts_sorted [(9, ()), (7, ()), (11, ())] _ h

/-- C3: on any reachable state, `DropLeft` removes exactly the first in-order
binding: the new snapshot lists the old bindings' tail (all other keys and
values unchanged, in order); on an empty tree the root stays nil; iterating
`dropLeft` m times drops the first m bindings, so repeated application drains
the tree to empty in ascending key order; and on a non-empty tree the removed
binding's key is strictly smaller than every remaining key. -/
theorem C3_dropLeft_removes_min {bt : BinaryTree V} (h : Reach bt) :
    toList (Root (DropLeft bt)) = (toList (Root bt)).tail ∧
    (Root bt = .nil → Root (DropLeft bt) = .nil) ∧
    (∀ m : Nat, toList (dropLeft^[m] (Root bt)) = (toList (Root bt)).drop m) ∧
    (Root bt ≠ .nil → ∃ kv rest, toList (Root bt) = kv :: rest ∧
      toList (Root (DropLeft bt)) = rest ∧ ∀ p ∈ rest, kv.1 < p.1) := by
  have hpw := (reach_inv h).1
  refine ⟨dropLeft_toList bt.root, ?_, ?_, ?_⟩
  · intro hnil
    show dropLeft bt.root = .nil
    rw [show Root bt = bt.root from rfl] at hnil
    rw [hnil]
    rfl
  · intro m
    induction m with
    | zero => simp
    | succ m ihm =>
      rw [Function.iterate_succ_apply', dropLeft_toList, ihm, List.tail_drop]
  · intro hne
    cases hlist : toList bt.root with
    | nil => exact absurd (nil_of_toList_eq_nil hlist) hne
    | cons kv rest =>
      refine ⟨kv, rest, hlist, ?_, ?_⟩
      · show toList (dropLeft bt.root) = rest
        rw [dropLeft_toList, hlist]
        rfl
      · intro p hp
        rw [keysT, hlist, keysL_cons] at hpw
        exact (List.pairwise_cons.mp hpw).1 p.1 (mem_keysL.mpr ⟨p.2, hp⟩)

theorem C3_witness :
    toList (Root (DropLeft
      ({ root := Tree.node 5 () (.node 3 () (.node 2 () .nil .nil 1) (.node 4 () .nil .nil 1) 2)
                   (.node 6 () .nil .nil 1) 3,
         added := 5, dropped := 0 } : BinaryTree Unit))) =
    (toList (Root
      ({ root := Tree.node 5 () (.node 3 () (.node 2 () .nil .nil 1) (.node 4 () .nil .nil 1) 2)
                   (.node 6 () .nil .nil 1) 3,
         added := 5, dropped := 0 } : BinaryTree Unit))).tail := by
  have h : run [Op.insert 5 (), Op.insert 3 (), Op.insert 6 (), Op.insert 4 (), Op.insert 2 ()] =
      some ({ root := Tree.node 5 () (.node 3 () (.node 2 () .nil .nil 1) (.node 4 () .nil .nil 1) 2)
                        (.node 6 () .nil .nil 1) 3,
              added := 5, dropped := 0 } : BinaryTree Unit) := by decide
  exact (C3_dropLeft_removes_min (reach_of_run h)).1

/-- C4 counterexample: after the inserts 1, 5, 2, 4, 3, 5 the key 2 is
present with no children; re-inserting key 2 (a replacement: `added` stays 5)
rebuilds the tree so that the node holding 2 now has two children and height
3 — the claim that a replaced node's subtree structure (children, height) is
preserved unchanged is false. -/
theorem C4_counterexample :
    run [Op.insert 1 (), Op.insert 5 (), Op.insert 2 (), Op.insert 4 (),
         Op.insert 3 (), Op.insert 5 ()] =
      some (⟨Tree.node 4 ()
               (.node 1 () .nil (.node 2 () .nil (.node 3 () .nil .nil 1) 2) 3)
               (.node 5 () .nil .nil 1) 4, 5, 0⟩ : BinaryTree Unit) ∧
    Insert 2 () (⟨Tree.node 4 ()
               (.node 1 () .nil (.node 2 () .nil (.node 3 () .nil .nil 1) 2) 3)
               (.node 5 () .nil .nil 1) 4, 5, 0⟩ : BinaryTree Unit) =
      some (⟨Tree.node 2 () (.node 1 () .nil .nil 1)
               (.node 4 () (.node 3 () .nil .nil 1) (.node 5 () .nil .nil 1) 2) 3,
             5, 0⟩ : BinaryTree Unit) ∧
    subtreeAt 2 (Tree.node 4 ()
               (.node 1 () .nil (.node 2 () .nil (.node 3 () .nil .nil 1) 2) 3)
               (.node 5 () .nil .nil 1) 4) =
      some (.node 2 () .nil (.node 3 () .nil .nil 1) 2) ∧
    subtreeAt 2 (Tree.node 2 () (.node 1 () .nil .nil 1)
               (.node 4 () (.node 3 () .nil .nil 1) (.node 5 () .nil .nil 1) 2) 3) =
      some (.node 2 () (.node 1 () .nil .nil 1)
               (.node 4 () (.node 3 () .nil .nil 1) (.node 5 () .nil .nil 1) 2) 3) := by
  decide

/-- C4 (amended): on any reachable state, a successful `Insert key value`
maps `key` to `value` in the new snapshot; if the key was present the
`added` counter is unchanged (the node's subtree may however be rebuilt by
rebalancing), and if it was absent `added` increases by exactly one. -/
theorem C4_insert_spec {bt bt1 : BinaryTree V} {key : Int} {value : V}
    (h : Reach bt) (hins : Insert key value bt = some bt1) :
    lookupKey key (toList (Root bt1)) = some value ∧
    (key ∈ keysT (Root bt) → bt1.added = bt.added) ∧
    (key ∉ keysT (Root bt) → bt1.added = bt.added + 1) := by
  obtain ⟨rt, ok, heq, hbt1⟩ := Insert_elim hins
  obtain ⟨hlist, hok⟩ := insert_main (reach_inv h).1 heq
  subst hbt1
  refine ⟨?_, ?_, ?_⟩
  · show lookupKey key (toList rt) = some value
    rw [hlist]
    exact lookupKey_linsert key value (toList bt.root)
  · intro hmem
    have hokf : ok = false := by
      cases ok with
      | false => rfl
      | true => exact absurd hmem (hok.mp rfl)
    simp [hokf]
  · intro hmem
    rw [show ok = true from hok.mpr hmem]
    simp

theorem C4_witness :
    lookupKey 2 (toList (Root
      (⟨Tree.node 1 () .nil (.node 2 () .nil .nil 1) 2, 2, 0⟩ : BinaryTree Unit))) = some () ∧
    ((2 : Int) ∈ keysT (Root (⟨Tree.node 1 () .nil .nil 1, 1, 0⟩ : BinaryTree Unit)) →
      (⟨Tree.node 1 () .nil (.node 2 () .nil .nil 1) 2, 2, 0⟩ : BinaryTree Unit).added =
        (⟨Tree.node 1 () .nil .nil 1, 1, 0⟩ : BinaryTree Unit).added) ∧
    ((2 : Int) ∉ keysT (Root (⟨Tree.node 1 () .nil .nil 1, 1, 0⟩ : BinaryTree Unit)) →
      (⟨Tree.node 1 () .nil (.node 2 () .nil .nil 1) 2, 2, 0⟩ : BinaryTree Unit).added =
        (⟨Tree.node 1 () .nil .nil 1, 1, 0⟩ : BinaryTree Unit).added + 1) := by
  have h : run [Op.insert 1 ()] =
      some (⟨Tree.node 1 () .nil .nil 1, 1, 0⟩ : BinaryTree Unit) := by decide
  have hins : Insert 2 () (⟨Tree.node 1 () .nil .nil 1, 1, 0⟩ : BinaryTree Unit) =
      some (⟨Tree.node 1 () .nil (.node 2 () .nil .nil 1) 2, 2, 0⟩ : BinaryTree Unit) := by
    decide
  exact C4_insert_spec (reach_of_run h) hins

/-- C7: on every reachable state `Stats` reports `Size = Added - Dropped`,
this size never exceeds the number of nodes reachable from `Root()`, and
`DropLeft` increments `Dropped` by one even when the tree is empty. -/
theorem C7_stats_size {bt : BinaryTree V} (h : Reach bt) :
    (Stats bt).Size = bt.added - bt.dropped ∧
    (Stats bt).Size ≤ (count (Root bt) : Int) ∧
    (DropLeft bt).dropped = bt.dropped + 1 := by
  refine ⟨rfl, ?_, rfl⟩
  have hc := (reach_inv h).2.2
  show bt.added - bt.dropped ≤ (count bt.root : Int)
  rw [count_eq_length]
  exact hc

theorem C7_witness :
    (Stats ({ root := .nil, added := 1, dropped := 2 } : BinaryTree Unit)).Size =
      (1 : Int) - 2 ∧
    (Stats ({ root := .nil, added := 1, dropped := 2 } : BinaryTree Unit)).Size ≤
      (count (Root ({ root := .nil, added := 1, dropped := 2 } : BinaryTree Unit)) : Int) ∧
    (DropLeft ({ root := .nil, added := 1, dropped := 2 } : BinaryTree Unit)).dropped = 2 + 1 := by
  have h : run [Op.insert 1 (), Op.dropLeft, Op.dropLeft] =
      some ({ root := .nil, added := 1, dropped := 2 } : BinaryTree Unit) := by decide
  exact C7_stats_size (reach_of_run h)

/-- C8: `Traverse` is exactly the early-stopping in-order fold of the
snapshot's binding list: it feeds bindings to `visit` in order, stops at the
first `false` (visiting nothing further anywhere in the tree) and propagates
`false` to the top level; it returns `true` exactly when every visited
binding returned `true`, vacuously on an empty snapshot. -/
theorem C8_traverse_refines_foldVisit (n : Tree V) (f : σ → Int → V → Bool × σ) (s : σ) :
    Traverse n f s = foldVisit f (toList n) s :=
  Traverse_eq_foldVisit n f s

end GoBinaryTree

/-! ## Heap frame lemmas: operations never write to a pre-existing address -/

namespace GoBinaryTree

variable {V : Type}

theorem hget_lt_length {h : Heap V} {a : Nat} {n : HNode V} (he : hget h a = some n) :
    a < h.length := by
  by_contra hcon
  rw [hget, List.getElem?_eq_none (le_of_not_lt hcon)] at he
  exact Option.noConfusion he

theorem hget_append (h : Heap V) (n : HNode V) {i : Nat} (hi : i < h.length) :
    hget (h ++ [n]) i = hget h i :=
  List.getElem?_append_left hi

theorem length_setHeight (h : Heap V) (a : Nat) (v : Int) :
    (setHeight h a v).length = h.length := by
  unfold setHeight
  split
  · rfl
  · exact List.length_set h a _

theorem hget_setHeight_ne {h : Heap V} {a : Nat} (v : Int) {i : Nat} (hne : i ≠ a) :
    hget (setHeight h a v) i = hget h i := by
  unfold setHeight
  split
  · rfl
  · exact List.getElem?_set_ne (Ne.symm hne)

theorem length_setLeft (h : Heap V) (a : Nat) (p : Option Nat) :
    (setLeft h a p).length = h.length := by
  unfold setLeft
  split
  · rfl
  · exact List.length_set h a _

theorem hget_setLeft_ne {h : Heap V} {a : Nat} (p : Option Nat) {i : Nat} (hne : i ≠ a) :
    hget (setLeft h a p) i = hget h i := by
  unfold setLeft
  split
  · rfl
  · exact List.getElem?_set_ne (Ne.symm hne)

theorem length_setRight (h : Heap V) (a : Nat) (p : Option Nat) :
    (setRight h a p).length = h.length := by
  unfold setRight
  split
  · rfl
  · exact List.length_set h a _

theorem hget_setRight_ne {h : Heap V} {a : Nat} (p : Option Nat) {i : Nat} (hne : i ≠ a) :
    hget (setRight h a p) i = hget h i := by
  unfold setRight
  split
  · rfl
  · exact List.getElem?_set_ne (Ne.symm hne)

end GoBinaryTree

namespace GoBinaryTree

variable {V : Type}

theorem rightRotateH_frame {h : Heap V} {yp : Option Nat} {h2 : Heap V} {a : Nat}
    (hr : rightRotateH h yp = some (h2, a)) :
    (∀ i, i < h.length → hget h2 i = hget h i) ∧ h.length ≤ h2.length := by
  cases yp with
  | none => simp [rightRotateH] at hr
  | some ya =>
    cases hy : hget h ya with
    | none => simp [rightRotateH, hy] at hr
    | some y =>
      cases hyl : y.left with
      | none => simp [rightRotateH, hy, hyl] at hr
      | some xa =>
        cases hx : hget h xa with
        | none => simp [rightRotateH, hy, hyl, hx] at hr
        | some x =>
          simp only [rightRotateH, hy, hyl, hx, alloc] at hr
          split at hr
          · exact Option.noConfusion hr
          · split at hr
            · exact Option.noConfusion hr
            · injection hr with hr
              obtain ⟨rfl, rfl⟩ := Prod.mk.injEq .. |>.mp hr
              constructor
              · intro i hi
                rw [hget_setHeight_ne _ (by simp [length_setHeight]; omega),
                    hget_setHeight_ne _ (by omega),
                    hget_append _ _ (by simp; omega), hget_append _ _ hi]
              · simp [length_setHeight]
  
theorem leftRotateH_frame {h : Heap V} {xp : Option Nat} {h2 : Heap V} {a : Nat}
    (hr : leftRotateH h xp = some (h2, a)) :
    (∀ i, i < h.length → hget h2 i = hget h i) ∧ h.length ≤ h2.length := by
  cases xp with
  | none => simp [leftRotateH] at hr
  | some xa =>
    cases hx : hget h xa with
    | none => simp [leftRotateH, hx] at hr
    | some x =>
      cases hxr : x.right with
      | none => simp [leftRotateH, hx, hxr] at hr
      | some ya =>
        cases hy : hget h ya with
        | none => simp [leftRotateH, hx, hxr, hy] at hr
        | some y =>
          simp only [leftRotateH, hx, hxr, hy, alloc] at hr
          split at hr
          · exact Option.noConfusion hr
          · split at hr
            · exact Option.noConfusion hr
            · injection hr with hr
              obtain ⟨rfl, rfl⟩ := Prod.mk.injEq .. |>.mp hr
              constructor
              · intro i hi
                rw [hget_setHeight_ne _ (by simp [length_setHeight]; omega),
                    hget_setHeight_ne _ (by omega),
                    hget_append _ _ (by simp; omega), hget_append _ _ hi]
              · simp [length_setHeight]

end GoBinaryTree

namespace GoBinaryTree

variable {V : Type}

theorem balanceH_frame {h : Heap V} {na : Nat} {key : Int} {h2 : Heap V} {a2 : Nat}
    (hb : balanceH h (some na) key = some (h2, a2)) :
    (∀ i, i < h.length → i ≠ na → hget h2 i = hget h i) ∧ h.length ≤ h2.length := by
  cases hn : hget h na with
  | none => simp [balanceH, hn] at hb
  | some n =>
    simp only [balanceH, hn] at hb
    split at hb
    · split at hb
      · split at hb
        · exact Option.noConfusion hb
        · split at hb
          · exact Option.noConfusion hb
          · split at hb
            · obtain ⟨hp, hl2⟩ := rightRotateH_frame hb
              exact ⟨fun i hi _ => hp i hi, hl2⟩
            · split at hb
              · split at hb
                · exact Option.noConfusion hb
                · rename_i p hlr
                  obtain ⟨hp1, hlen1⟩ := leftRotateH_frame hlr
                  obtain ⟨hp2, hlen2⟩ := rightRotateH_frame hb
                  constructor
                  · intro i hi hne
                    rw [hp2 i (by rw [length_setLeft]; omega), hget_setLeft_ne _ hne]
                    exact hp1 i hi
                  · rw [length_setLeft] at hlen2
                    omega
              · injection hb with hb
                obtain ⟨rfl, rfl⟩ := Prod.mk.injEq .. |>.mp hb
                exact ⟨fun i _ _ => rfl, le_refl _⟩
      · split at hb
        · split at hb
          · exact Option.noConfusion hb
          · split at hb
            · exact Option.noConfusion hb
            · split at hb
              · obtain ⟨hp, hl2⟩ := leftRotateH_frame hb
                exact ⟨fun i hi _ => hp i hi, hl2⟩
              · split at hb
                · split at hb
                  · injection hb with hb
                    obtain ⟨rfl, rfl⟩ := Prod.mk.injEq .. |>.mp hb
                    exact ⟨fun i _ _ => rfl, le_refl _⟩
                  · split at hb
                    · exact Option.noConfusion hb
                    · rename_i p hrr
                      obtain ⟨hp1, hlen1⟩ := rightRotateH_frame hrr
                      obtain ⟨hp2, hlen2⟩ := leftRotateH_frame hb
                      constructor
                      · intro i hi hne
                        rw [hp2 i (by rw [length_setRight]; omega), hget_setRight_ne _ hne]
                        exact hp1 i hi
                      · rw [length_setRight] at hlen2
                        omega
                · injection hb with hb
                  obtain ⟨rfl, rfl⟩ := Prod.mk.injEq .. |>.mp hb
                  exact ⟨fun i _ _ => rfl, le_refl _⟩
        · injection hb with hb
          obtain ⟨rfl, rfl⟩ := Prod.mk.injEq .. |>.mp hb
          exact ⟨fun i _ _ => rfl, le_refl _⟩
    · exact Option.noConfusion hb

end GoBinaryTree

namespace GoBinaryTree

variable {V : Type}

theorem insertH_frame {fuel : Nat} {key : Int} {value : V} :
    ∀ {h : Heap V} {np : Option Nat} {h2 : Heap V} {a : Nat},
    insertH fuel key value h np = some (h2, a) →
    (∀ i, i < h.length → hget h2 i = hget h i) ∧ h.length ≤ h2.length := by
  induction fuel with
  | zero => intro h np h2 a hi; exact Option.noConfusion hi
  | succ fuel ih =>
    intro h np h2 a hi
    cases np with
    | none =>
      simp only [insertH, alloc] at hi
      injection hi with hi
      obtain ⟨rfl, rfl⟩ := Prod.mk.injEq .. |>.mp hi
      exact ⟨fun i hilt => hget_append h _ hilt, by simp⟩
    | some na =>
      cases hn : hget h na with
      | none => simp [insertH, hn] at hi
      | some n =>
        simp only [insertH, hn, alloc] at hi
        split at hi
        · split at hi
          · exact Option.noConfusion hi
          · rename_i q hrec
            split at hi
            · exact Option.noConfusion hi
            · rename_i hh hfh
              obtain ⟨hp1, hlen1⟩ := ih hrec
              obtain ⟨hp2, hlen2⟩ := balanceH_frame hi
              rw [length_setHeight] at hlen2
              simp only [List.length_append, List.length_cons, List.length_nil] at hlen2
              constructor
              · intro i hilt
                rw [hp2 i (by rw [length_setHeight]; simp; omega) (by omega),
                    hget_setHeight_ne _ (by omega),
                    hget_append _ _ (by omega)]
                exact hp1 i hilt
              · omega
        · split at hi
          · split at hi
            · exact Option.noConfusion hi
            · rename_i q hrec
              split at hi
              · exact Option.noConfusion hi
              · rename_i hh hfh
                obtain ⟨hp1, hlen1⟩ := ih hrec
                obtain ⟨hp2, hlen2⟩ := balanceH_frame hi
                rw [length_setHeight] at hlen2
                simp only [List.length_append, List.length_cons, List.length_nil] at hlen2
                constructor
                · intro i hilt
                  rw [hp2 i (by rw [length_setHeight]; simp; omega) (by omega),
                      hget_setHeight_ne _ (by omega),
                      hget_append _ _ (by omega)]
                  exact hp1 i hilt
                · omega
          · injection hi with hi
            obtain ⟨rfl, rfl⟩ := Prod.mk.injEq .. |>.mp hi
            exact ⟨fun i hilt => hget_append h _ hilt, by simp⟩

theorem dropLeftH_frame {fuel : Nat} :
    ∀ {h : Heap V} {np : Option Nat} {h2 : Heap V} {r2 : Option Nat},
    dropLeftH fuel h np = some (h2, r2) →
    (∀ i, i < h.length → hget h2 i = hget h i) ∧ h.length ≤ h2.length := by
  induction fuel with
  | zero => intro h np h2 r2 hd; exact Option.noConfusion hd
  | succ fuel ih =>
    intro h np h2 r2 hd
    cases np with
    | none =>
      simp only [dropLeftH] at hd
      injection hd with hd
      obtain ⟨rfl, rfl⟩ := Prod.mk.injEq .. |>.mp hd
      exact ⟨fun i _ => rfl, le_refl _⟩
    | some na =>
      cases hn : hget h na with
      | none => simp [dropLeftH, hn] at hd
      | some n =>
        simp only [dropLeftH, hn, alloc] at hd
        split at hd
        · injection hd with hd
          obtain ⟨rfl, rfl⟩ := Prod.mk.injEq .. |>.mp hd
          exact ⟨fun i _ => rfl, le_refl _⟩
        · split at hd
          · exact Option.noConfusion hd
          · rename_i q hrec
            split at hd
            · exact Option.noConfusion hd
            · rename_i hh hfh
              injection hd with hd
              obtain ⟨rfl, rfl⟩ := Prod.mk.injEq .. |>.mp hd
              obtain ⟨hp1, hlen1⟩ := ih hrec
              constructor
              · intro i hilt
                rw [hget_setHeight_ne _ (by omega), hget_append _ _ (by omega)]
                exact hp1 i hilt
              · rw [length_setHeight]
                simp
                omega

theorem inorderH_agree {fuel : Nat} :
    ∀ {h h2 : Heap V} {np : Option Nat} {l : List (Int × V)},
    inorderH fuel h np = some l →
    (∀ i, i < h.length → hget h2 i = hget h i) →
    inorderH fuel h2 np = some l := by
  induction fuel with
  | zero => intro h h2 np l hio hpres; exact Option.noConfusion hio
  | succ fuel ih =>
    intro h h2 np l hio hpres
    cases np with
    | none => exact hio
    | some a =>
      cases hn : hget h a with
      | none => simp [inorderH, hn] at hio
      | some n =>
        simp only [inorderH, hn] at hio
        have hn2 : hget h2 a = some n := by
          rw [hpres a (hget_lt_length hn)]
          exact hn
        cases hio1 : inorderH fuel h n.left with
        | none => rw [hio1] at hio; simp at hio
        | some ls =>
          cases hio2 : inorderH fuel h n.right with
          | none => rw [hio1, hio2] at hio; simp at hio
          | some rs =>
            rw [hio1, hio2] at hio
            dsimp only at hio
            simp only [inorderH, hn2, ih hio1 hpres, ih hio2 hpres]
            exact hio

end GoBinaryTree

namespace GoBinaryTree

variable {V : Type}

theorem applyOpH_frame {fuel : Nat} {op : Op V} {h : Heap V} {r : Option Nat}
    {h2 : Heap V} {r2 : Option Nat}
    (ha : applyOpH fuel op (h, r) = some (h2, r2)) :
    (∀ i, i < h.length → hget h2 i = hget h i) ∧ h.length ≤ h2.length := by
  cases op with
  | insert key value =>
    simp only [applyOpH] at ha
    cases hi : insertH fuel key value h r with
    | none => rw [hi] at ha; simp at ha
    | some p =>
      rw [hi] at ha
      dsimp only at ha
      injection ha with ha
      obtain ⟨rfl, rfl⟩ := Prod.mk.injEq .. |>.mp ha
      exact insertH_frame hi
  | dropLeft => exact dropLeftH_frame ha

theorem runHFrom_frame {fuel : Nat} :
    ∀ {ops : List (Op V)} {h : Heap V} {r : Option Nat} {h2 : Heap V} {r2 : Option Nat},
    runHFrom fuel (h, r) ops = some (h2, r2) →
    (∀ i, i < h.length → hget h2 i = hget h i) ∧ h.length ≤ h2.length := by
  intro ops
  induction ops with
  | nil =>
    intro h r h2 r2 hr
    simp only [runHFrom, Option.some.injEq] at hr
    obtain ⟨rfl, rfl⟩ := Prod.mk.injEq .. |>.mp hr
    exact ⟨fun i _ => rfl, le_refl _⟩
  | cons op ops ih =>
    intro h r h2 r2 hr
    simp only [runHFrom] at hr
    cases hop : applyOpH fuel op (h, r) with
    | none => rw [hop] at hr; simp at hr
    | some s1 =>
      rw [hop] at hr
      obtain ⟨h1, r1⟩ := s1
      obtain ⟨hp1, hlen1⟩ := applyOpH_frame hop
      obtain ⟨hp2, hlen2⟩ := ih hr
      refine ⟨?_, le_trans hlen1 hlen2⟩
      intro i hilt
      rw [hp2 i (by omega)]
      exact hp1 i hilt

/-- C6: copy-on-write snapshot immutability.  In the heap embedding (where
every Go field write is an explicit store) `Insert` and `DropLeft` never
write to an address that existed before the operation, so a root reference
obtained earlier still enumerates exactly the same key/value sequence after
any further sequence of writer calls. -/
theorem C6_snapshot_immutable {fuel1 fuel2 fuel3 : Nat} {ops1 ops2 : List (Op V)}
    {h1 : Heap V} {r1 : Option Nat} {h2 : Heap V} {r2 : Option Nat} {l : List (Int × V)}
    (_hrun1 : runH fuel1 ops1 = some (h1, r1))
    (hrun2 : runHFrom fuel2 (h1, r1) ops2 = some (h2, r2))
    (hio : inorderH fuel3 h1 r1 = some l) :
    inorderH fuel3 h2 r1 = some l :=
  inorderH_agree hio (runHFrom_frame hrun2).1

theorem C6_witness :
    runH 10 ([Op.insert 1 ()] : List (Op Unit)) =
      some ([⟨1, (), none, none, 1⟩], some 0) ∧
    runHFrom 10 (([⟨1, (), none, none, 1⟩] : Heap Unit), some 0)
        [Op.insert 2 (), Op.dropLeft] =
      some ([⟨1, (), none, none, 1⟩, ⟨2, (), none, none, 1⟩, ⟨1, (), none, some 1, 2⟩],
        some 1) ∧
    inorderH 10 ([⟨1, (), none, none, 1⟩] : Heap Unit) (some 0) = some [(1, ())] ∧
    inorderH 10
      ([⟨1, (), none, none, 1⟩, ⟨2, (), none, none, 1⟩, ⟨1, (), none, some 1, 2⟩] : Heap Unit)
      (some 0) = some [(1, ())] := by
  have ha : runH 10 ([Op.insert 1 ()] : List (Op Unit)) =
      some ([⟨1, (), none, none, 1⟩], some 0) := by decide
  have hb : runHFrom 10 (([⟨1, (), none, none, 1⟩] : Heap Unit), some 0)
      [Op.insert 2 (), Op.dropLeft] =
      some ([⟨1, (), none, none, 1⟩, ⟨2, (), none, none, 1⟩, ⟨1, (), none, some 1, 2⟩],
        some 1) := by decide
  have hc : inorderH 10 ([⟨1, (), none, none, 1⟩] : Heap Unit) (some 0) =
      some [(1, ())] := by decide
  exact ⟨ha, hb, hc, C6_snapshot_immutable ha hb hc⟩

end GoBinaryTree
